import Mathlib

/-!
Verification of the matrixio storage layer (src/src/matrixio/matrixio.c) and
its client get_sdos (src/mpb/sdos.c).

The embedding is a shallow one: the dataset on disk is a flat row-major store
modelled as a function from flat indices to element values, index arithmetic
uses Nat, and the HDF5 hyperslab selections constructed by the C code are
modelled as lists of selected flat indices enumerated in row-major order
(last axis varying fastest), which is the transfer order HDF5 documents and
the spec states.  Fatal CHECK aborts are modelled with Except: a call that
aborts returns Except.error with the CHECK message.
-/

namespace Matrixio

/-! ### Filename normalization (matrixio.c, add_fname_suffix, lines 64-82) -/

/-- The canonical filename suffix, FNAME_SUFFIX = ".h5" (matrixio.c line 62). -/
def fnameSuffix : List Char := ['.', 'h', '5']

/-- Index of the first occurrence of needle inside hay, as computed by the C
library function strstr (None when there is no occurrence). -/
def strstrIndex (hay needle : List Char) : Option Nat :=
  (List.range (hay.length + 1)).find? (fun i => needle.isPrefixOf (hay.drop i))

/-- add_fname_suffix (matrixio.c lines 64-82): copy the name and append ".h5"
unless strstr finds the suffix exactly at position oldlen - suflen, i.e.
unless the first occurrence of ".h5" is at the tail. -/
def add_fname_suffix (fname : List Char) : List Char :=
  match strstrIndex fname fnameSuffix with
  | some i =>
      if (i : Int) = (fname.length : Int) - (fnameSuffix.length : Int) then fname
      else fname ++ fnameSuffix
  | none => fname ++ fnameSuffix

/-- Concrete path used to exhibit the suffix-check slip: a name that contains
".h5" in the middle. -/
def fnameMid : List Char := ['a', '.', 'h', '5', 'b']

/-- Concrete path whose true tail is ".h5" but whose first ".h5" occurrence
is earlier in the string. -/
def fnameTailAndMid : List Char := ['x', '.', 'h', '5', 'y', '.', 'h', '5']

/-! ### The iGspan metadata array (sdos.c, get_sdos, line 174)

get_sdos declares
  real iGspan[6] = {iG1_min, iG1_max, iG2_min, iG2_max, iG2_min, iG2_max};
and writes it as the 6-element dataset "iGspan" whose description attribute
reads "iG1_min, iG1_max, iG2_min, iG2_max, iG3_min, iG3_max" (line 246). -/

/-- Contents of the iGspan array exactly as initialized at sdos.c line 174
(the iG3 arguments are accepted but, as in the source, never used). -/
def get_sdos_iGspan (iG1_min iG1_max iG2_min iG2_max iG3_min iG3_max : Int) :
    List Int :=
  [iG1_min, iG1_max, iG2_min, iG2_max, iG2_min, iG2_max]

/-! ### The matrixio call sequence performed by get_sdos (sdos.c lines 236-253) -/

/-- One call into the matrixio layer, as issued by get_sdos. -/
inductive MatrixioCall where
  | createFile
  | createDataset (dsname : String)
  | writeRealData
  | closeDataset
  | closeFile
deriving DecidableEq, BEq, Repr

/-- The straight-line sequence of matrixio calls in get_sdos, sdos.c lines
236-253: one file create, four dataset creates each followed by a write,
then a single matrixio_close_dataset and the file close. -/
def get_sdos_matrixio_calls : List MatrixioCall :=
  [MatrixioCall.createFile,
   MatrixioCall.createDataset "sdos", MatrixioCall.writeRealData,
   MatrixioCall.createDataset "freqspan", MatrixioCall.writeRealData,
   MatrixioCall.createDataset "iGspan", MatrixioCall.writeRealData,
   MatrixioCall.createDataset "kpoint", MatrixioCall.writeRealData,
   MatrixioCall.closeDataset,
   MatrixioCall.closeFile]

/-- Recognizer for dataset-creation calls. -/
def MatrixioCall.isCreateDataset : MatrixioCall → Bool
  | MatrixioCall.createDataset _ => true
  | _ => false

/-! ### Collective group creation (matrixio.c, matrixio_create_sub, lines 137-162)

Each process runs a straight-line sequence of externally visible actions that
depends only on whether it is the MPI master.  We record that per-process
action trace. -/

/-- Externally visible actions of matrixio_create_sub and add_string_attr. -/
inductive GroupAction where
  | createGroup
  | attachAttr
  | flushFile
  | barrierSync
  | openGroup
deriving DecidableEq, BEq, Repr

/-- Action trace of add_string_attr (matrixio.c lines 34-60): only the master
attaches, and only when both the attribute name and value are non-empty. -/
def add_string_attr_acts (isMaster : Bool) (name val : String) :
    List GroupAction :=
  if !isMaster then []
  else if name = "" ∨ val = "" then []
  else [GroupAction.attachAttr]

/-- Action trace of matrixio_create_sub (matrixio.c lines 137-162): the master
creates the group, attaches the description, flushes, and enters the barrier;
every other process enters the barrier and then opens the group. -/
def matrixio_create_sub_acts (isMaster : Bool) (description : String) :
    List GroupAction :=
  if isMaster then
    GroupAction.createGroup ::
      (add_string_attr_acts isMaster "description" description ++
        [GroupAction.flushFile, GroupAction.barrierSync])
  else
    [GroupAction.barrierSync, GroupAction.openGroup]

/-! ### Row-major index space

HDF5 dataspaces are row-major: the last axis varies fastest.  boxTuples
enumerates all index tuples of a given shape in row-major (lexicographic)
order; rowMajor flattens a tuple against a shape. -/

/-- All index tuples of the given shape, in row-major order. -/
def boxTuples : List Nat → List (List Nat)
  | [] => [[]]
  | d :: ds => (List.range d).flatMap (fun i => (boxTuples ds).map (i :: ·))

/-- Row-major flat index of a tuple in a shape (last axis varies fastest). -/
def rowMajor : List Nat → List Nat → Nat
  | _ :: ds, i :: is => i * ds.prod + rowMajor ds is
  | _, _ => 0

/-- Bool test that a tuple lies inside a shape (same rank, each coordinate
below the corresponding extent). -/
def inBoxB : List Nat → List Nat → Bool
  | [], [] => true
  | t :: ts, d :: ds => decide (t < d) && inBoxB ts ds
  | _, _ => false

/-- Bool test that a hyperslab (per-axis start and count) fits inside a
shape: same rank and start + count does not exceed the extent on any axis. -/
def inBoundsB : List Nat → List Nat → List Nat → Bool
  | [], [], [] => true
  | s :: ss, c :: cs, d :: ds => decide (s + c ≤ d) && inBoundsB ss cs ds
  | _, _, _ => false

/-- Multiply the last entry of a list by s (models "count[rank-1] *= stride"
applied to a dimension array, and equally the per-axis stride vector
(1, ..., 1, stride) applied to an offset tuple). -/
def scaleLast (s : Nat) : List Nat → List Nat
  | [] => []
  | [a] => [a * s]
  | a :: b :: rest => a :: scaleLast s (b :: rest)

/-- The global hyperslab of a write call, as the row-major list of global
tuples: per-axis start local_start, per-axis count local_dims, unit stride
(matrixio.c lines 250-257). -/
def slabL (start cnt : List Nat) : List (List Nat) :=
  (boxTuples cnt).map (fun t => List.zipWith Nat.add start t)

/-- Apply a list of (flat index, value) assignments left to right to a flat
store; models the element transfer of H5Dwrite / H5Dread, which pairs the
n-th point of the memory selection with the n-th point of the file
selection. -/
def writeList (ps : List (Nat × α)) (f : Nat → α) : Nat → α :=
  ps.foldl (fun g p => Function.update g p.1 p.2) f

theorem writeList_cons (p : Nat × α) (ps : List (Nat × α)) (f : Nat → α) :
    writeList (p :: ps) f = writeList ps (Function.update f p.1 p.2) := rfl

theorem writeList_not_mem (ps : List (Nat × α)) (f : Nat → α) (i : Nat)
    (h : i ∉ ps.map Prod.fst) : writeList ps f i = f i := by
  induction ps generalizing f with
  | nil => rfl
  | cons p ps ih =>
      simp only [List.map_cons, List.mem_cons, not_or] at h
      rw [writeList_cons, ih _ h.2, Function.update_noteq h.1]

theorem writeList_mem (ps : List (Nat × α)) (f : Nat → α) (i : Nat) (v : α)
    (hnd : (ps.map Prod.fst).Nodup) (hm : (i, v) ∈ ps) :
    writeList ps f i = v := by
  induction ps generalizing f with
  | nil => cases hm
  | cons p ps ih =>
      simp only [List.map_cons, List.nodup_cons] at hnd
      rcases List.mem_cons.mp hm with h | h
      · subst h
        rw [writeList_cons, writeList_not_mem _ _ _ hnd.1,
          Function.update_same]
      · exact (writeList_cons _ _ _) ▸ ih _ hnd.2 h

/-! #### Basic facts about the row-major enumeration -/

theorem mem_boxTuples {t ds : List Nat} :
    t ∈ boxTuples ds ↔ inBoxB t ds = true := by
  induction ds generalizing t with
  | nil =>
      cases t with
      | nil => simp [boxTuples, inBoxB]
      | cons a t => simp [boxTuples, inBoxB]
  | cons d ds ih =>
      cases t with
      | nil =>
          simp only [boxTuples, List.mem_flatMap, List.mem_map, inBoxB]
          constructor
          · rintro ⟨i, _, t, _, h⟩; cases h
          · intro h; cases h
      | cons a t =>
          simp only [boxTuples, List.mem_flatMap, List.mem_map,
            List.mem_range, inBoxB, Bool.and_eq_true, decide_eq_true_eq]
          constructor
          · rintro ⟨i, hi, t', ht', heq⟩
            cases heq
            exact ⟨hi, ih.mp ht'⟩
          · rintro ⟨ha, ht⟩
            exact ⟨a, ha, t, ih.mpr ht, rfl⟩

theorem inBoxB_length {t ds : List Nat} (h : inBoxB t ds = true) :
    t.length = ds.length := by
  induction ds generalizing t with
  | nil => cases t with
    | nil => rfl
    | cons a t => simp [inBoxB] at h
  | cons d ds ih =>
      cases t with
      | nil => simp [inBoxB] at h
      | cons a t =>
          simp only [inBoxB, Bool.and_eq_true] at h
          simpa [List.length_cons] using ih h.2

theorem rowMajor_lt {t ds : List Nat} (h : inBoxB t ds = true) :
    rowMajor ds t < ds.prod := by
  induction ds generalizing t with
  | nil =>
      cases t with
      | nil => simp [rowMajor]
      | cons a t => simp [inBoxB] at h
  | cons d ds ih =>
      cases t with
      | nil => simp [inBoxB] at h
      | cons a t =>
          simp only [inBoxB, Bool.and_eq_true, decide_eq_true_eq] at h
          have ht := ih h.2
          calc rowMajor (d :: ds) (a :: t) = a * ds.prod + rowMajor ds t := rfl
            _ < a * ds.prod + ds.prod := by omega
            _ = (a + 1) * ds.prod := by ring
            _ ≤ d * ds.prod := Nat.mul_le_mul_right _ h.1
            _ = (d :: ds).prod := (List.prod_cons).symm

/-- The row-major flat indices of all tuples of a shape are exactly
0, 1, ..., prod - 1 in order. -/
theorem boxTuples_map_rowMajor (ds : List Nat) :
    (boxTuples ds).map (rowMajor ds) = List.range ds.prod := by
  induction ds with
  | nil => rfl
  | cons d ds ih =>
      have hrange : ∀ n : Nat, List.range (n * ds.prod) =
          (List.range n).flatMap
            (fun i => (List.range ds.prod).map (fun r => i * ds.prod + r)) := by
        intro n
        induction n with
        | zero => simp
        | succ n ihn =>
            rw [Nat.succ_mul, List.range_add, ihn, List.range_succ,
              List.flatMap_append, List.flatMap_cons]
            simp [Nat.add_comm]
      rw [boxTuples, List.map_flatMap, List.prod_cons, hrange]
      apply List.flatMap_congr
      intro i _
      rw [List.map_map, ← ih, List.map_map]
      rfl

theorem boxTuples_length (ds : List Nat) :
    (boxTuples ds).length = ds.prod := by
  have h := congrArg List.length (boxTuples_map_rowMajor ds)
  simpa using h

theorem boxTuples_nodup (ds : List Nat) : (boxTuples ds).Nodup :=
  List.Nodup.of_map (rowMajor ds)
    (boxTuples_map_rowMajor ds ▸ List.nodup_range ds.prod)

/-- Every flat index below the total size is hit by some in-box tuple. -/
theorem rowMajor_surj {ds : List Nat} {j : Nat} (hj : j < ds.prod) :
    ∃ t, inBoxB t ds = true ∧ rowMajor ds t = j := by
  have : j ∈ (boxTuples ds).map (rowMajor ds) := by
    rw [boxTuples_map_rowMajor]; exact List.mem_range.mpr hj
  rcases List.mem_map.mp this with ⟨t, ht, heq⟩
  exact ⟨t, mem_boxTuples.mp ht, heq⟩

/-- rowMajor is injective on tuples inside the shape. -/
theorem rowMajor_inj {ds a b : List Nat} (ha : inBoxB a ds = true)
    (hb : inBoxB b ds = true) (h : rowMajor ds a = rowMajor ds b) : a = b := by
  induction ds generalizing a b with
  | nil =>
      cases a with
      | nil => cases b with
        | nil => rfl
        | cons y ys => simp [inBoxB] at hb
      | cons x xs => simp [inBoxB] at ha
  | cons d ds ih =>
      cases a with
      | nil => simp [inBoxB] at ha
      | cons x xs =>
          cases b with
          | nil => simp [inBoxB] at hb
          | cons y ys =>
              simp only [inBoxB, Bool.and_eq_true, decide_eq_true_eq] at ha hb
              have hxs := rowMajor_lt ha.2
              have hys := rowMajor_lt hb.2
              have hxy : x = y := by
                rcases Nat.lt_trichotomy x y with hlt | heq | hgt
                · exfalso
                  have : (x + 1) * ds.prod ≤ y * ds.prod :=
                    Nat.mul_le_mul_right _ hlt
                  have hL : rowMajor (d :: ds) (x :: xs) <
                      rowMajor (d :: ds) (y :: ys) := by
                    show x * ds.prod + rowMajor ds xs <
                      y * ds.prod + rowMajor ds ys
                    have : x * ds.prod + rowMajor ds xs < (x + 1) * ds.prod := by
                      rw [Nat.succ_mul]; omega
                    omega
                  omega
                · exact heq
                · exfalso
                  have : (y + 1) * ds.prod ≤ x * ds.prod :=
                    Nat.mul_le_mul_right _ hgt
                  have hL : rowMajor (d :: ds) (y :: ys) <
                      rowMajor (d :: ds) (x :: xs) := by
                    show y * ds.prod + rowMajor ds ys <
                      x * ds.prod + rowMajor ds xs
                    have : y * ds.prod + rowMajor ds ys < (y + 1) * ds.prod := by
                      rw [Nat.succ_mul]; omega
                    omega
                  omega
              subst hxy
              have hrest : rowMajor ds xs = rowMajor ds ys := by
                have : x * ds.prod + rowMajor ds xs =
                    x * ds.prod + rowMajor ds ys := h
                omega
              rw [ih ha.2 hb.2 hrest]

/-! #### scaleLast: the "last axis times stride" arithmetic -/

theorem scaleLast_one : ∀ l : List Nat, scaleLast 1 l = l
  | [] => rfl
  | [a] => by simp [scaleLast]
  | a :: b :: rest => by
      rw [scaleLast]
      exact congrArg (a :: ·) (scaleLast_one (b :: rest))

theorem scaleLast_eq_dropLast_append (s : Nat) :
    ∀ l : List Nat, l ≠ [] →
      scaleLast s l = l.dropLast ++ [l.getLastD 0 * s]
  | [], h => absurd rfl h
  | [a], _ => by simp [scaleLast]
  | a :: b :: rest, _ => by
      rw [scaleLast, scaleLast_eq_dropLast_append s (b :: rest) (by simp)]
      simp

theorem prod_scaleLast (s : Nat) :
    ∀ l : List Nat, l ≠ [] → (scaleLast s l).prod = s * l.prod
  | [], h => absurd rfl h
  | [a], _ => by simp [scaleLast]; ring
  | a :: b :: rest, _ => by
      rw [scaleLast, List.prod_cons, List.prod_cons,
        prod_scaleLast s (b :: rest) (by simp)]
      ring

/-- Scaling the last coordinate of a tuple and the last extent of the shape
multiplies the row-major flat index by the scale: this is why selecting
every stride-th element of the expanded last axis picks buffer slot
stride * k for the k-th selected point. -/
theorem rowMajor_scaleLast (s : Nat) :
    ∀ (l t : List Nat), t.length = l.length →
      rowMajor (scaleLast s l) (scaleLast s t) = s * rowMajor l t
  | [], t, h => by
      have : t = [] := List.length_eq_zero.mp h
      subst this; simp [scaleLast, rowMajor]
  | [a], t, h => by
      match t, h with
      | [x], _ => simp [scaleLast, rowMajor]; ring
  | a :: b :: rest, t, h => by
      match t, h with
      | x :: y :: trest, h =>
          have hlen : (y :: trest).length = (b :: rest).length := by
            simpa using h
          show rowMajor (a :: scaleLast s (b :: rest))
              (x :: scaleLast s (y :: trest)) =
            s * rowMajor (a :: b :: rest) (x :: y :: trest)
          show x * (scaleLast s (b :: rest)).prod +
              rowMajor (scaleLast s (b :: rest)) (scaleLast s (y :: trest)) = _
          rw [prod_scaleLast s (b :: rest) (by simp),
            rowMajor_scaleLast s (b :: rest) (y :: trest) hlen]
          show _ = s * (x * (b :: rest).prod + rowMajor (b :: rest) (y :: trest))
          ring

/-! ### matrixio_write_real_data (matrixio.c lines 208-280)

The function reads the dataset shape (storedDims), selects the global
hyperslab (start = local_start, count = local_dims, unit stride, lines
250-257), builds the memory dataspace of shape local_dims with the last
axis multiplied by stride (count[rank-1] *= stride, line 262), selects in
it every stride-th point of the last axis (strides = (1,...,1,stride),
passed as NULL when stride <= 1, lines 261-266), and transfers.  Its only
CHECK aborts guard allocation, which the model never fails, so the Except
error branch is never taken. -/

variable {α : Type} {ε β : Type}

/-- Flat buffer indices selected by the memory-space selection the write
builds, in row-major order (matrixio.c lines 259-266). -/
def writeMemFlat (cnt : List Nat) (s : Nat) : List Nat :=
  if s ≤ 1 then (boxTuples cnt).map (rowMajor (scaleLast s cnt))
  else ((boxTuples cnt).map (scaleLast s)).map (rowMajor (scaleLast s cnt))

/-- The element transfer H5Dwrite performs for the two selections the write
constructs: the n-th point of the memory selection is stored at the n-th
point of the file selection. -/
def writeTransfer (storedDims cnt st : List Nat) (s : Nat)
    (data : Nat → α) (ds : Nat → α) : Nat → α :=
  writeList
    (List.zip ((slabL st cnt).map (rowMajor storedDims))
      ((writeMemFlat cnt s).map data)) ds

/-- matrixio_write_real_data: the dataset rank comes from the stored
dataspace and exactly rank entries of local_dims / local_start are read
(the C loops run for i < rank). -/
def matrixio_write_real_data (storedDims local_dims local_start : List Nat)
    (stride : Nat) (data : Nat → α) (ds : Nat → α) :
    Except String (Nat → α) :=
  Except.ok (writeTransfer storedDims
    (local_dims.take storedDims.length)
    (local_start.take storedDims.length) stride data ds)

/-- Arguments of one matrixio_write_real_data call. -/
structure WriteCall (α : Type) where
  local_dims : List Nat
  local_start : List Nat
  stride : Nat
  data : Nat → α

/-- The global hyperslab of a write call. -/
def WriteCall.slab (c : WriteCall α) : List (List Nat) :=
  slabL c.local_start c.local_dims

/-- Run a sequence of matrixio_write_real_data calls against a dataset of
shape storedDims, starting from the store ds. -/
def runWrites (storedDims : List Nat) (calls : List (WriteCall α))
    (ds : Nat → α) : Nat → α :=
  calls.foldl (fun d c =>
    match matrixio_write_real_data storedDims c.local_dims c.local_start
        c.stride c.data d with
    | Except.ok d2 => d2
    | Except.error _ => d) ds

/-! ### matrixio_read_real_data (matrixio.c lines 282-367)

The read first CHECKs rank > 0 (line 294), then that the declared rank
equals the stored rank (line 303) and that every stored extent equals the
corresponding declared extent (lines 314-317, a loop over all axes
including axis 0) -- each failure is a fatal abort before H5Dread runs.
The memory space is the declared dims with axis 0 replaced by local_dim0
and the last axis multiplied by stride (lines 340-345); the memory
selection takes every stride-th point of the last axis, and the file
selection is rows local_dim0_start ..< local_dim0_start + local_dim0 with
all other axes in full (lines 346-352). -/

/-- Flat buffer indices selected by the memory-space selection the read
builds (matrixio.c lines 340-347). -/
def readMemFlat (dims : List Nat) (local_dim0 stride : Nat) : List Nat :=
  ((boxTuples (local_dim0 :: dims.tail)).map (scaleLast stride)).map
    (rowMajor (scaleLast stride (local_dim0 :: dims.tail)))

def matrixio_read_real_data (storedDims : List Nat) (ds : Nat → α)
    (dims : List Nat) (local_dim0 local_dim0_start stride : Nat)
    (buffer : Nat → α) : Except String (Nat → α) :=
  if dims.length = 0 then Except.error "non-positive rank"
  else if storedDims.length ≠ dims.length then
    Except.error "rank in HDF5 file does not match expected rank"
  else if storedDims ≠ dims then
    Except.error "array size in HDF5 file does not match expected size"
  else
    let cnt := local_dim0 :: dims.tail
    let fileStart := local_dim0_start :: List.replicate (dims.length - 1) 0
    let fileFlat := ((boxTuples cnt).map
        (fun t => List.zipWith Nat.add fileStart t)).map (rowMajor storedDims)
    Except.ok (writeList
      (List.zip (readMemFlat dims local_dim0 stride) (fileFlat.map ds))
      buffer)

/-- Whether a matrixio call completed rather than aborting. -/
def exOk : Except ε β → Bool
  | Except.ok _ => true
  | Except.error _ => false

/-! ### Facts about the selections -/

/-- For any stride at least 1, the write memory selection picks exactly
every stride-th flat buffer slot, in row-major order: slot stride * k for
the k-th transferred element. -/
theorem writeMemFlat_eq {cnt : List Nat} {s : Nat} (hs : 1 ≤ s) :
    writeMemFlat cnt s = (List.range cnt.prod).map (fun k => s * k) := by
  rcases Nat.lt_or_ge s 2 with h2 | h2
  · have hs1 : s = 1 := by omega
    subst hs1
    rw [writeMemFlat, if_pos (by omega), scaleLast_one,
      boxTuples_map_rowMajor]
    simp
  · rw [writeMemFlat, if_neg (by omega), List.map_map]
    have hcongr : ∀ t ∈ boxTuples cnt,
        (rowMajor (scaleLast s cnt) ∘ scaleLast s) t =
          s * rowMajor cnt t := by
      intro t ht
      exact rowMajor_scaleLast s cnt t
        (inBoxB_length (mem_boxTuples.mp ht))
    rw [List.map_congr_left hcongr]
    have : (fun t => s * rowMajor cnt t) =
        (fun k => s * k) ∘ rowMajor cnt := rfl
    rw [this, ← List.map_map, boxTuples_map_rowMajor]

/-- The read memory selection likewise picks slot stride * k for the k-th
transferred element (here for every stride, since the read always passes an
explicit stride vector). -/
theorem readMemFlat_eq (dims : List Nat) (local_dim0 s : Nat) :
    readMemFlat dims local_dim0 s =
      (List.range (local_dim0 :: dims.tail).prod).map (fun k => s * k) := by
  rw [readMemFlat, List.map_map]
  have hcongr : ∀ t ∈ boxTuples (local_dim0 :: dims.tail),
      (rowMajor (scaleLast s (local_dim0 :: dims.tail)) ∘ scaleLast s) t =
        s * rowMajor (local_dim0 :: dims.tail) t := by
    intro t ht
    exact rowMajor_scaleLast s _ t (inBoxB_length (mem_boxTuples.mp ht))
  rw [List.map_congr_left hcongr]
  have : (fun t => s * rowMajor (local_dim0 :: dims.tail) t) =
      (fun k => s * k) ∘ rowMajor (local_dim0 :: dims.tail) := rfl
  rw [this, ← List.map_map, boxTuples_map_rowMajor]

theorem inBoundsB_lengths : ∀ {st cnt ds : List Nat},
    inBoundsB st cnt ds = true →
      st.length = ds.length ∧ cnt.length = ds.length
  | [], [], [], _ => ⟨rfl, rfl⟩
  | [], [], _ :: _, h => by simp [inBoundsB] at h
  | [], _ :: _, _, h => by cases ds₀ : ([] : List Nat) <;> simp [inBoundsB] at h
  | _ :: _, [], _, h => by simp [inBoundsB] at h
  | _ :: _, _ :: _, [], h => by simp [inBoundsB] at h
  | s :: ss, c :: cs, d :: ds, h => by
      simp only [inBoundsB, Bool.and_eq_true] at h
      have := inBoundsB_lengths h.2
      simp [List.length_cons, this.1, this.2]

/-- A point of an in-bounds hyperslab lies inside the dataset shape. -/
theorem zipAdd_inBox : ∀ {st cnt ds t : List Nat},
    inBoundsB st cnt ds = true → inBoxB t cnt = true →
      inBoxB (List.zipWith Nat.add st t) ds = true
  | [], [], [], [], _, _ => rfl
  | [], [], _ :: _, t, hb, _ => by simp [inBoundsB] at hb
  | [], _ :: _, _, t, hb, _ => by simp [inBoundsB] at hb
  | _ :: _, [], _, t, hb, _ => by simp [inBoundsB] at hb
  | _ :: _, _ :: _, [], t, hb, _ => by simp [inBoundsB] at hb
  | s :: ss, c :: cs, d :: ds, [], _, ht => by simp [inBoxB] at ht
  | s :: ss, c :: cs, d :: ds, x :: t, hb, ht => by
      simp only [inBoundsB, Bool.and_eq_true, decide_eq_true_eq] at hb
      simp only [inBoxB, Bool.and_eq_true, decide_eq_true_eq] at ht
      simp only [List.zipWith_cons_cons, inBoxB, Bool.and_eq_true,
        decide_eq_true_eq, Nat.add_eq]
      exact ⟨by omega, zipAdd_inBox hb.2 ht.2⟩

/-- Adding a fixed start offset is injective on tuples of matching length. -/
theorem zipAdd_inj : ∀ {st x y : List Nat},
    x.length = st.length → y.length = st.length →
      List.zipWith Nat.add st x = List.zipWith Nat.add st y → x = y
  | [], [], [], _, _, _ => rfl
  | [], x :: xs, _, hx, _, _ => by simp at hx
  | [], _, y :: ys, _, hy, _ => by simp at hy
  | s :: st, [], _, hx, _, _ => by simp at hx
  | s :: st, _ :: _, [], _, hy, _ => by simp at hy
  | s :: st, x :: xs, y :: ys, hx, hy, h => by
      simp only [List.zipWith_cons_cons, List.cons.injEq, Nat.add_eq] at h
      have h1 : x = y := by omega
      have h2 : xs = ys := zipAdd_inj (by simpa using hx) (by simpa using hy) h.2
      rw [h1, h2]

theorem mem_slabL {st cnt t : List Nat} (ht : inBoxB t cnt = true) :
    List.zipWith Nat.add st t ∈ slabL st cnt :=
  List.mem_map.mpr ⟨t, mem_boxTuples.mpr ht, rfl⟩

theorem slabL_length (st cnt : List Nat) :
    (slabL st cnt).length = cnt.prod := by
  rw [slabL, List.length_map, boxTuples_length]

/-- The file-selection flat indices of an in-bounds write are pairwise
distinct. -/
theorem slabL_flat_nodup {ds st cnt : List Nat}
    (hb : inBoundsB st cnt ds = true) :
    ((slabL st cnt).map (rowMajor ds)).Nodup := by
  rw [slabL, List.map_map]
  apply List.Nodup.map_on _ (boxTuples_nodup cnt)
  intro x hx y hy hxy
  have hx' := mem_boxTuples.mp hx
  have hy' := mem_boxTuples.mp hy
  have hxd := zipAdd_inBox hb hx'
  have hyd := zipAdd_inBox hb hy'
  have := rowMajor_inj hxd hyd hxy
  have hlen := (inBoundsB_lengths hb).2
  exact zipAdd_inj
    ((inBoxB_length hx').trans ((inBoundsB_lengths hb).2.trans
      (inBoundsB_lengths hb).1.symm))
    ((inBoxB_length hy').trans ((inBoundsB_lengths hb).2.trans
      (inBoundsB_lengths hb).1.symm)) this

/-- The write transfer, rewritten as the row-major list of single-element
stores it performs: the k-th point of the global hyperslab receives buffer
slot stride * k. -/
theorem writeTransfer_pairs {ds st cnt : List Nat} {s : Nat} (hs : 1 ≤ s)
    (data dstore : Nat → α) :
    writeTransfer ds cnt st s data dstore =
      writeList ((boxTuples cnt).map (fun t =>
        (rowMajor ds (List.zipWith Nat.add st t),
         data (s * rowMajor cnt t)))) dstore := by
  rw [writeTransfer, writeMemFlat_eq hs, slabL, List.map_map,
    ← boxTuples_map_rowMajor cnt, List.map_map, List.map_map]
  rw [List.zip_map']
  rfl

/-- One in-bounds write stores, at the global point start + t of its
hyperslab, the buffer element at slot stride * (row-major rank of t). -/
theorem writeTransfer_hit {ds st cnt t : List Nat} {s : Nat} (hs : 1 ≤ s)
    (hb : inBoundsB st cnt ds = true) (ht : inBoxB t cnt = true)
    (data dstore : Nat → α) :
    writeTransfer ds cnt st s data dstore
        (rowMajor ds (List.zipWith Nat.add st t)) =
      data (s * rowMajor cnt t) := by
  rw [writeTransfer_pairs hs]
  apply writeList_mem
  · rw [List.map_map]
    have : (Prod.fst ∘ fun t => (rowMajor ds (List.zipWith Nat.add st t),
        data (s * rowMajor cnt t))) =
        (fun t => rowMajor ds (List.zipWith Nat.add st t)) := rfl
    rw [this]
    have := slabL_flat_nodup hb
    rwa [slabL, List.map_map] at this
  · exact List.mem_map.mpr ⟨t, mem_boxTuples.mpr ht, rfl⟩

/-- An in-bounds write leaves every global point outside its hyperslab
untouched. -/
theorem writeTransfer_miss {ds st cnt g : List Nat} {s : Nat}
    (hb : inBoundsB st cnt ds = true) (hg : inBoxB g ds = true)
    (hnot : g ∉ slabL st cnt) (data dstore : Nat → α) :
    writeTransfer ds cnt st s data dstore (rowMajor ds g) =
      dstore (rowMajor ds g) := by
  rw [writeTransfer]
  apply writeList_not_mem
  intro hmem
  have hlen : ((slabL st cnt).map (rowMajor ds)).length =
      ((writeMemFlat cnt s).map data).length := by
    rw [List.length_map, List.length_map, slabL_length, writeMemFlat]
    by_cases h1 : s ≤ 1 <;>
      simp [h1, boxTuples_length]
  rw [List.map_fst_zip _ _ (le_of_eq hlen)] at hmem
  rcases List.mem_map.mp hmem with ⟨g', hg', heq⟩
  rcases List.mem_map.mp hg' with ⟨t, ht, rfl⟩
  have ht' := mem_boxTuples.mp ht
  have : List.zipWith Nat.add st t = g :=
    rowMajor_inj (zipAdd_inBox hb ht') hg heq
  exact hnot (this ▸ mem_slabL ht')

/-- Unfolding one step of runWrites. -/
theorem runWrites_cons (D : List Nat) (c : WriteCall α)
    (rest : List (WriteCall α)) (dstore : Nat → α) :
    runWrites D (c :: rest) dstore =
      runWrites D rest (writeTransfer D (c.local_dims.take D.length)
        (c.local_start.take D.length) c.stride c.data dstore) := rfl

/-- Validity of one write call against the dataset shape: positive stride
and an in-bounds hyperslab (which forces both argument arrays to have the
dataset rank). -/
def WriteCall.valid (D : List Nat) (c : WriteCall α) : Prop :=
  1 ≤ c.stride ∧ inBoundsB c.local_start c.local_dims D = true

theorem take_of_inBounds {D st cnt : List Nat}
    (hb : inBoundsB st cnt D = true) :
    cnt.take D.length = cnt ∧ st.take D.length = st := by
  obtain ⟨h1, h2⟩ := inBoundsB_lengths hb
  constructor
  · rw [← h2, List.take_length]
  · rw [← h1, List.take_length]

/-- A global point touched by none of the calls keeps its initial value. -/
theorem runWrites_untouched {D g : List Nat} {calls : List (WriteCall α)}
    (hg : inBoxB g D = true)
    (hvalid : ∀ c ∈ calls, c.valid D)
    (hnot : ∀ c ∈ calls, g ∉ c.slab) (dstore : Nat → α) :
    runWrites D calls dstore (rowMajor D g) = dstore (rowMajor D g) := by
  induction calls generalizing dstore with
  | nil => rfl
  | cons c rest ih =>
      have hb := (hvalid c (List.mem_cons_self c rest)).2
      obtain ⟨hc1, hc2⟩ := take_of_inBounds hb
      rw [runWrites_cons, hc1, hc2,
        ih (fun c h => hvalid c (List.mem_cons_of_mem _ h))
          (fun c h => hnot c (List.mem_cons_of_mem _ h)),
        writeTransfer_miss hb hg (hnot c (List.mem_cons_self c rest))]

/-- Main write lemma: after a sequence of valid calls with pairwise disjoint
hyperslabs, the global point start + t of any call c in the sequence holds
the element of that call's buffer at slot stride * (row-major rank of t). -/
theorem runWrites_covered {D : List Nat} {calls : List (WriteCall α)}
    {c : WriteCall α} {t : List Nat}
    (hvalid : ∀ c ∈ calls, c.valid D)
    (hdisj : calls.Pairwise (fun c c' => ∀ g ∈ c.slab, g ∉ c'.slab))
    (hc : c ∈ calls) (ht : inBoxB t c.local_dims = true) (dstore : Nat → α) :
    runWrites D calls dstore
        (rowMajor D (List.zipWith Nat.add c.local_start t)) =
      c.data (c.stride * rowMajor c.local_dims t) := by
  induction calls generalizing dstore with
  | nil => cases hc
  | cons c0 rest ih =>
      have hv0 := hvalid c0 (List.mem_cons_self c0 rest)
      obtain ⟨hc1, hc2⟩ := take_of_inBounds hv0.2
      rcases List.mem_cons.mp hc with rfl | hmem
      · have hg : inBoxB (List.zipWith Nat.add c.local_start t) D = true :=
          zipAdd_inBox hv0.2 ht
        have hslab : List.zipWith Nat.add c.local_start t ∈ c.slab :=
          mem_slabL ht
        rw [runWrites_cons, hc1, hc2,
          runWrites_untouched hg
            (fun c' h => hvalid c' (List.mem_cons_of_mem _ h))
            (fun c' h' => (List.pairwise_cons.mp hdisj).1 c' h' _ hslab)]
        exact writeTransfer_hit hv0.1 hv0.2 ht c.data dstore
      · rw [runWrites_cons, hc1, hc2]
        exact ih (fun c' h => hvalid c' (List.mem_cons_of_mem _ h))
          (List.pairwise_cons.mp hdisj).2 hmem _

theorem zipAdd_zeros : ∀ t : List Nat,
    List.zipWith Nat.add (List.replicate t.length 0) t = t
  | [] => rfl
  | x :: t => by
      simp only [List.length_cons, List.replicate_succ,
        List.zipWith_cons_cons, Nat.add_eq, Nat.zero_add]
      rw [zipAdd_zeros t]

/-- A full-extent read (declared dims equal to the stored dims, local_dim0
the whole axis-0 extent, zero row offset, unit stride) succeeds and returns
exactly the stored flat values at every flat index of the dataset. -/
theorem read_full (d0 : Nat) (drest : List Nat) (f buf : Nat → α) :
    ∃ out,
      matrixio_read_real_data (d0 :: drest) f (d0 :: drest) d0 0 1 buf =
        Except.ok out ∧
      ∀ j, j < (d0 :: drest).prod → out j = f j := by
  have hred : matrixio_read_real_data (d0 :: drest) f (d0 :: drest) d0 0 1 buf
      = Except.ok (writeList
          (List.zip (List.range (d0 :: drest).prod)
            ((List.range (d0 :: drest).prod).map f)) buf) := by
    rw [matrixio_read_real_data, if_neg (by simp), if_neg (by simp),
      if_neg (by simp)]
    have hmem : readMemFlat (d0 :: drest) d0 1 =
        List.range (d0 :: drest).prod := by
      rw [readMemFlat_eq]
      simp
    have hstart : (0 : Nat) :: List.replicate ((d0 :: drest).length - 1) 0 =
        List.replicate (d0 :: drest).length 0 := by
      simp [List.replicate_succ]
    have hfile : ((boxTuples (d0 :: (d0 :: drest).tail)).map
        (fun t => List.zipWith Nat.add
          (0 :: List.replicate ((d0 :: drest).length - 1) 0) t)).map
        (rowMajor (d0 :: drest)) = List.range (d0 :: drest).prod := by
      rw [List.tail_cons, hstart]
      have : ∀ t ∈ boxTuples (d0 :: drest),
          List.zipWith Nat.add (List.replicate (d0 :: drest).length 0) t
            = t := by
        intro t ht
        have hlen := inBoxB_length (mem_boxTuples.mp ht)
        rw [← hlen]
        exact zipAdd_zeros t
      rw [List.map_congr_left this, List.map_id', boxTuples_map_rowMajor]
    simp only [List.tail_cons] at hfile ⊢
    rw [hmem, hfile]
  refine ⟨_, hred, ?_⟩
  intro j hj
  have hpair : List.zip (List.range (d0 :: drest).prod)
      ((List.range (d0 :: drest).prod).map f) =
      (List.range (d0 :: drest).prod).map (fun k => (k, f k)) := by
    have h := List.zip_map' (id : Nat → Nat) f
      (List.range (d0 :: drest).prod)
    simpa using h
  rw [hpair]
  apply writeList_mem
  · rw [List.map_map]
    have : (Prod.fst ∘ fun k : Nat => (k, f k)) = id := rfl
    rw [this, List.map_id]
    exact List.nodup_range _
  · exact List.mem_map.mpr ⟨j, List.mem_range.mpr hj, rfl⟩

/-! ## Claim theorems -/

/-- C2: the 6-element "iGspan" dataset is documented (by its own description
attribute, sdos.c line 246) to hold iG1_min, iG1_max, iG2_min, iG2_max,
iG3_min, iG3_max, but the array initialized at sdos.c line 174 repeats the
iG2 pair in the last two slots: with iG2 span 0..0 and iG3 span 1..2 the
written contents are [0,0,0,0,0,0], not the documented [0,0,0,0,1,2]. -/
theorem c2_iGspan_slots :
    get_sdos_iGspan 0 0 0 0 1 2 = [0, 0, 0, 0, 0, 0] ∧
    get_sdos_iGspan 0 0 0 0 1 2 ≠ [0, 0, 0, 0, 1, 2] := by
  decide

/-- C3: add_fname_suffix is not idempotent.  On "a.h5b" the first ".h5"
occurrence is not at the tail, so one application appends ".h5"; applying
again, the first occurrence is still not at the tail, so a second ".h5" is
appended, giving "a.h5b.h5.h5" instead of "a.h5b.h5". -/
theorem c3_not_idempotent :
    add_fname_suffix (add_fname_suffix fnameMid) ≠ add_fname_suffix fnameMid ∧
    add_fname_suffix fnameMid = fnameMid ++ fnameSuffix ∧
    add_fname_suffix (add_fname_suffix fnameMid) =
      fnameMid ++ fnameSuffix ++ fnameSuffix := by
  decide

/-- C4: the suffix check is not an exact tail-equality check.  "x.h5y.h5"
ends in ".h5", yet add_fname_suffix appends another ".h5" because strstr
finds the first occurrence earlier in the string. -/
theorem c4_substring_check :
    fnameSuffix.isSuffixOf fnameTailAndMid = true ∧
    add_fname_suffix fnameTailAndMid = fnameTailAndMid ++ fnameSuffix := by
  decide

/-- C9: get_sdos creates four dataset handles via matrixio_create_dataset
("sdos", "freqspan", "iGspan", "kpoint") but calls matrixio_close_dataset
only once before closing the container, so three handles are never
closed. -/
theorem c9_dataset_handles_leak :
    get_sdos_matrixio_calls.countP MatrixioCall.isCreateDataset = 4 ∧
    get_sdos_matrixio_calls.count MatrixioCall.closeDataset = 1 := by
  decide

/-- C5: a read whose declared rank differs from the stored rank, or whose
declared extent differs from the stored extent on some axis other than
axis 0, aborts with a fatal validation error, returning no data (the CHECKs
at matrixio.c lines 294, 303 and 314-317 run before H5Dread). -/
theorem c5_read_validation (storedDims dims : List Nat) (ds buffer : Nat → α)
    (local_dim0 local_dim0_start stride : Nat)
    (h : storedDims.length ≠ dims.length ∨
      ∃ i, 0 < i ∧ i < dims.length ∧ i < storedDims.length ∧
        storedDims.getD i 0 ≠ dims.getD i 0) :
    exOk (matrixio_read_real_data storedDims ds dims local_dim0
      local_dim0_start stride buffer) = false := by
  rw [matrixio_read_real_data]
  by_cases h0 : dims.length = 0
  · rw [if_pos h0]; rfl
  · rw [if_neg h0]
    by_cases h1 : storedDims.length ≠ dims.length
    · rw [if_pos h1]; rfl
    · rw [if_neg h1]
      have hne : storedDims ≠ dims := by
        rcases h with h | ⟨i, hi0, hilt, hislt, hine⟩
        · exact absurd h h1
        · intro heq
          rw [heq] at hine
          exact hine rfl
      rw [if_pos hne]; rfl

/-- Witness for C5: declared dims [2,4] against stored dims [2,3] (axis 1
mismatch) aborts. -/
theorem c5_read_validation_witness :
    exOk (matrixio_read_real_data [2, 3] (fun _ => (0 : Nat)) [2, 4] 2 0 1
      (fun _ => 0)) = false :=
  c5_read_validation _ _ _ _ _ _ _
    (Or.inr ⟨1, by decide, by decide, by decide, by decide⟩)

/-- C10: the extent-validation loop starts at axis 0, so a declared dims[0]
that differs from the stored axis-0 extent is also a fatal shape-mismatch
abort, even when every other axis matches. -/
theorem c10_read_validates_axis0 (storedDims dims : List Nat)
    (ds buffer : Nat → α) (local_dim0 local_dim0_start stride : Nat)
    (h0 : 0 < dims.length) (h1 : storedDims.length = dims.length)
    (h2 : storedDims.tail = dims.tail)
    (h3 : storedDims.getD 0 0 ≠ dims.getD 0 0) :
    matrixio_read_real_data storedDims ds dims local_dim0 local_dim0_start
        stride buffer =
      Except.error "array size in HDF5 file does not match expected size" := by
  rw [matrixio_read_real_data, if_neg (by omega), if_neg (fun hc => hc h1)]
  have hne : storedDims ≠ dims := by
    intro heq
    rw [heq] at h3
    exact h3 rfl
  rw [if_pos hne]

/-- Witness for C10: stored dims [5,3] read with declared dims [4,3]. -/
theorem c10_read_validates_axis0_witness :
    matrixio_read_real_data [5, 3] (fun _ => (0 : Nat)) [4, 3] 4 0 1
        (fun _ => 0) =
      Except.error "array size in HDF5 file does not match expected size" :=
  c10_read_validates_axis0 _ _ _ _ _ _ _ (by decide) (by decide) (by decide)
    (by decide)

/-- C8 (amended): matrixio_write_real_data performs no out-of-range
validation at all -- its only CHECK aborts guard allocation -- so no call,
out of range or not, ever raises a validation error: every call completes
and hands its selections to the underlying library unchecked. -/
theorem c8_write_never_validates (storedDims local_dims local_start : List Nat)
    (stride : Nat) (data dstore : Nat → α) :
    exOk (matrixio_write_real_data storedDims local_dims local_start stride
      data dstore) = true := rfl

/-- C8 counterexample: the out-of-range write local_start = [2],
local_dims = [3] on a dataset of extent [4] (2 + 3 > 4) completes without
raising any error, contradicting the claimed ValidationError abort. -/
theorem c8_out_of_range_not_rejected :
    exOk (matrixio_write_real_data [4] [3] [2] 1 (fun _ => (0 : Nat))
      (fun _ => 0)) = true := rfl

/-! ### Helpers for the collective-creation claim -/

theorem master_trace (d : String) :
    ∃ pre, matrixio_create_sub_acts true d =
        pre ++ [GroupAction.flushFile, GroupAction.barrierSync] ∧
      GroupAction.createGroup ∈ pre ∧
      (d ≠ "" → GroupAction.attachAttr ∈ pre) := by
  by_cases hd : d = ""
  · subst hd
    exact ⟨[GroupAction.createGroup], by decide, by simp,
      fun h => absurd rfl h⟩
  · refine ⟨[GroupAction.createGroup, GroupAction.attachAttr], ?_, by simp,
      fun _ => by simp⟩
    rw [matrixio_create_sub_acts, if_pos rfl, add_string_attr_acts,
      if_neg (by decide), if_neg (by push_neg; exact ⟨by decide, hd⟩)]
    rfl

theorem attr_count_create (b : Bool) (n v : String) :
    (add_string_attr_acts b n v).count GroupAction.createGroup = 0 := by
  rw [add_string_attr_acts]
  split
  · rfl
  · split
    · rfl
    · rfl

theorem count_create_master (d : String) :
    (matrixio_create_sub_acts true d).count GroupAction.createGroup = 1 := by
  rw [matrixio_create_sub_acts, if_pos rfl, List.count_cons,
    List.count_append, attr_count_create]
  decide

theorem count_create_follower (d : String) :
    (matrixio_create_sub_acts false d).count GroupAction.createGroup = 0 :=
  rfl

theorem countP_eq_sum (l : List Nat) (p : Nat → Bool) :
    (l.map (fun a => if p a then 1 else 0)).sum = l.countP p := by
  induction l with
  | nil => rfl
  | cons a t ih =>
      rw [List.map_cons, List.sum_cons, ih, List.countP_cons]
      by_cases h : p a = true <;> simp [h, Nat.add_comm]

/-- C7: for any K processes of which exactly one is the coordinator, the
group-creation traces contain exactly one creation in total; the
coordinator creates, optionally attaches the description, and flushes
before reaching the barrier; every follower passes the barrier first and
then only opens -- all independent of how the barrier is reached, since
each trace is fixed by the process role alone. -/
theorem c7_exactly_once_creation (K : Nat) (master : Nat → Bool)
    (description : String)
    (h : (List.range K).countP (fun i => master i) = 1) :
    ((List.range K).map (fun i =>
        (matrixio_create_sub_acts (master i) description).count
          GroupAction.createGroup)).sum = 1 ∧
    (∀ i, i < K → master i = true →
      ∃ pre, matrixio_create_sub_acts (master i) description =
          pre ++ [GroupAction.flushFile, GroupAction.barrierSync] ∧
        GroupAction.createGroup ∈ pre ∧
        (description ≠ "" → GroupAction.attachAttr ∈ pre)) ∧
    (∀ i, i < K → master i = false →
      matrixio_create_sub_acts (master i) description =
        [GroupAction.barrierSync, GroupAction.openGroup]) := by
  refine ⟨?_, ?_, ?_⟩
  · have hmap : (List.range K).map (fun i =>
        (matrixio_create_sub_acts (master i) description).count
          GroupAction.createGroup) =
        (List.range K).map (fun i => if master i then 1 else 0) := by
      apply List.map_congr_left
      intro i _
      cases hmi : master i
      · simpa using count_create_follower description
      · simpa using count_create_master description
    rw [hmap, countP_eq_sum, h]
  · intro i _ hmi
    rw [hmi]
    exact master_trace description
  · intro i _ hmi
    rw [hmi]
    rfl

/-- Witness for C7: three processes with process 0 the coordinator. -/
theorem c7_exactly_once_creation_witness :
    ((List.range 3).map (fun i =>
        (matrixio_create_sub_acts (i == 0) "shift data").count
          GroupAction.createGroup)).sum = 1 ∧
    matrixio_create_sub_acts ((1 : Nat) == 0) "shift data" =
      [GroupAction.barrierSync, GroupAction.openGroup] := by
  have h := c7_exactly_once_creation 3 (fun i => i == 0) "shift data"
    (by decide)
  exact ⟨h.1, h.2.2 1 (by decide) (by decide)⟩

/-- C6: the write's memory selection: the memory dataspace is local_dims
with the last axis expanded to local_dims[r-1] * stride slots; the
selected flat buffer slots are exactly stride * k for k below
prod(local_dims), i.e. every stride-th slot starting at 0 in row-major
order; the selection has prod(local_dims) points, the same number as the
global hyperslab selection; and for stride <= 1 it is the full contiguous
range. -/
theorem c6_local_selection (local_dims local_start : List Nat) (stride : Nat)
    (h1 : local_dims ≠ []) (h2 : 1 ≤ stride) :
    scaleLast stride local_dims =
        local_dims.dropLast ++ [local_dims.getLastD 0 * stride] ∧
    writeMemFlat local_dims stride =
        (List.range local_dims.prod).map (fun k => stride * k) ∧
    (writeMemFlat local_dims stride).length = local_dims.prod ∧
    (slabL local_start local_dims).length = local_dims.prod ∧
    (stride ≤ 1 →
      writeMemFlat local_dims stride = List.range local_dims.prod) := by
  refine ⟨scaleLast_eq_dropLast_append stride local_dims h1,
    writeMemFlat_eq h2, ?_, slabL_length _ _, ?_⟩
  · rw [writeMemFlat_eq h2]
    simp
  · intro hle
    have hs1 : stride = 1 := by omega
    subst hs1
    rw [writeMemFlat_eq h2]
    simp

/-- Witness for C6: shape [2,3] with stride 2 selects buffer slots
0,2,4,6,8,10 of a [2,6] memory space. -/
theorem c6_local_selection_witness :
    scaleLast 2 [2, 3] =
        List.dropLast [2, 3] ++ [List.getLastD [2, 3] 0 * 2] ∧
    writeMemFlat [2, 3] 2 =
        (List.range (List.prod [2, 3])).map (fun k => 2 * k) ∧
    (writeMemFlat [2, 3] 2).length = List.prod [2, 3] ∧
    (slabL [0, 0] [2, 3]).length = List.prod [2, 3] ∧
    ((2 : Nat) ≤ 1 → writeMemFlat [2, 3] 2 = List.range (List.prod [2, 3])) :=
  c6_local_selection [2, 3] [0, 0] 2 (by decide) (by decide)

/-- C1: write/read round-trip.  For a dataset of declared shape
d0 :: drest, after any sequence of valid matrixio_write_real_data calls
whose global hyperslabs are pairwise disjoint and together cover the whole
shape, a full-extent read (same rank and dims, local_dim0 = dims[0],
local_dim0_start = 0, stride = 1) succeeds, every flat position of the
output corresponds to some written global position, and the value read at
the global point start + t of any call equals that call's buffer element
at slot stride * (row-major rank of t) -- the value the write stored
there. -/
theorem c1_roundtrip (d0 : Nat) (drest : List Nat)
    (calls : List (WriteCall α)) (ds0 buf0 : Nat → α)
    (hvalid : ∀ c ∈ calls, c.valid (d0 :: drest))
    (hdisj : calls.Pairwise (fun c c' => ∀ g ∈ c.slab, g ∉ c'.slab))
    (hcover : ∀ g ∈ boxTuples (d0 :: drest), ∃ c ∈ calls, g ∈ c.slab) :
    ∃ out,
      matrixio_read_real_data (d0 :: drest)
          (runWrites (d0 :: drest) calls ds0) (d0 :: drest) d0 0 1 buf0 =
        Except.ok out ∧
      (∀ j, j < (d0 :: drest).prod → ∃ c ∈ calls, ∃ t,
        inBoxB t c.local_dims = true ∧
        rowMajor (d0 :: drest) (List.zipWith Nat.add c.local_start t) = j) ∧
      (∀ c ∈ calls, ∀ t, inBoxB t c.local_dims = true →
        out (rowMajor (d0 :: drest) (List.zipWith Nat.add c.local_start t)) =
          c.data (c.stride * rowMajor c.local_dims t)) := by
  obtain ⟨out, hok, hout⟩ :=
    read_full d0 drest (runWrites (d0 :: drest) calls ds0) buf0
  refine ⟨out, hok, ?_, ?_⟩
  · intro j hj
    obtain ⟨g, hgbox, hgj⟩ := rowMajor_surj hj
    obtain ⟨c, hc, hgslab⟩ := hcover g (mem_boxTuples.mpr hgbox)
    rcases List.mem_map.mp hgslab with ⟨t, ht, rfl⟩
    exact ⟨c, hc, t, mem_boxTuples.mp ht, hgj⟩
  · intro c hc t ht
    have hg : inBoxB (List.zipWith Nat.add c.local_start t)
        (d0 :: drest) = true :=
      zipAdd_inBox (hvalid c hc).2 ht
    rw [hout _ (rowMajor_lt hg)]
    exact runWrites_covered hvalid hdisj hc ht ds0

/-- First write call of the round-trip witness: row 0 of a [2] dataset. -/
def c1callA : WriteCall Nat := ⟨[1], [0], 1, fun _ => 10⟩

/-- Second write call of the round-trip witness: row 1 of a [2] dataset. -/
def c1callB : WriteCall Nat := ⟨[1], [1], 1, fun _ => 20⟩

/-- The two disjoint covering write calls of the round-trip witness. -/
def c1calls : List (WriteCall Nat) := [c1callA, c1callB]

/-- All-zero initial store and buffer for the round-trip witness. -/
def c1zeros : Nat → Nat := fun _ => 0

/-- Witness for C1: a [2] dataset covered by two disjoint one-row writes
(values 10 and 20) reads back [10, 20]. -/
theorem c1_roundtrip_witness :
    ((matrixio_read_real_data [2] (runWrites [2] c1calls c1zeros) [2] 2 0 1
        c1zeros).toOption.getD c1zeros) 0 = 10 ∧
    ((matrixio_read_real_data [2] (runWrites [2] c1calls c1zeros) [2] 2 0 1
        c1zeros).toOption.getD c1zeros) 1 = 20 := by
  have hvalid : ∀ c ∈ c1calls, c.valid [2] := by
    intro c hc
    rcases List.mem_cons.mp hc with rfl | hc
    · exact ⟨by decide, by decide⟩
    · rcases List.mem_singleton.mp hc with rfl
      exact ⟨by decide, by decide⟩
  have hdisj : c1calls.Pairwise (fun c c' => ∀ g ∈ c.slab, g ∉ c'.slab) := by
    refine List.pairwise_cons.mpr ⟨?_, List.pairwise_singleton _ _⟩
    intro c' hc'
    rcases List.mem_singleton.mp hc' with rfl
    decide
  have hcover : ∀ g ∈ boxTuples [2], ∃ c ∈ c1calls, g ∈ c.slab := by
    intro g hg
    have hg2 : g ∈ ([[0], [1]] : List (List Nat)) := by
      have he : boxTuples [2] = [[0], [1]] := by decide
      rwa [he] at hg
    rcases List.mem_cons.mp hg2 with rfl | hg3
    · exact ⟨c1callA, List.mem_cons_self _ _, by decide⟩
    · rcases List.mem_singleton.mp hg3 with rfl
      exact ⟨c1callB, by simp [c1calls], by decide⟩
  obtain ⟨out, hok, _, hpt⟩ :=
    c1_roundtrip 2 [] c1calls c1zeros c1zeros hvalid hdisj hcover
  have hA := hpt c1callA (List.mem_cons_self _ _) [0] (by decide)
  have hB := hpt c1callB (by simp [c1calls]) [0] (by decide)
  rw [hok]
  constructor
  · simpa [c1callA, rowMajor] using hA
  · simpa [c1callB, rowMajor] using hB

end Matrixio
